import Mathlib

/-!
Verification of the bounded-buffer producer/consumer core
(`assignment-1/producer_consumer.py`).

The Python classes are embedded as pure Lean data and state-passing
functions:

* `SharedBuffer` holds the `capacity` field (a Python `int`, hence `Int`)
  and the `buffer` list.  `put`/`take` block on a guard in the source; a
  blocked call is modelled by `Option`: `none` means the guard
  `len(buffer) >= capacity` (resp. `len(buffer) == 0`) held, so the call
  suspends instead of taking effect.
* The concurrent producer/consumer run is an interleaving transition
  system `SysStep` on states carrying the shared buffer, the producer's
  remaining source, the consumer's remaining iteration count and the
  destination list.
* The `queue.Queue`-backed variant (`ProducerConsumerQueue`) is modelled
  by `PCQueue` with the library queue's documented FIFO/bounded/ack
  semantics, and its run by `QStep`.
-/

namespace ProducerConsumer

/-- The `SharedBuffer` object: `self.capacity` and `self.buffer`.
The lock and the two condition variables carry no data; blocking is
modelled at the operation level. -/
structure SharedBuffer (α : Type) where
  capacity : Int
  buffer : List α
deriving DecidableEq

/-- `SharedBuffer.__init__`: sets `capacity` and an empty `buffer`.
The Python constructor performs no validation and cannot fail. -/
def SharedBuffer.init {α : Type} (capacity : Int) : SharedBuffer α :=
  { capacity := capacity, buffer := [] }

/-- `SharedBuffer.put`: while `len(self.buffer) >= self.capacity` the
caller waits (`none`); otherwise the item is appended at the tail. -/
def SharedBuffer.putOp {α : Type} (b : SharedBuffer α) (item : α) :
    Option (SharedBuffer α) :=
  if (b.buffer.length : Int) ≥ b.capacity then
    none
  else
    some { b with buffer := b.buffer ++ [item] }

/-- `SharedBuffer.take`: while `len(self.buffer) == 0` the caller waits
(`none`); otherwise `buffer.pop(0)` removes and returns the head. -/
def SharedBuffer.takeOp {α : Type} (b : SharedBuffer α) :
    Option (α × SharedBuffer α) :=
  match b.buffer with
  | [] => none
  | item :: rest => some (item, { b with buffer := rest })

/-- `SharedBuffer.size`: returns `len(self.buffer)` under the lock; the
returned pair carries the (unchanged) buffer state after the call. -/
def SharedBuffer.size {α : Type} (b : SharedBuffer α) : Nat × SharedBuffer α :=
  (b.buffer.length, b)

/-- Modelled from the spec, for comparison with `SharedBuffer.init` only:
the claimed constructor that "fails with a configuration error if
`capacity ≤ 0`"; the source constructor has no such check. -/
def SharedBuffer.initClaimed {α : Type} (capacity : Int) :
    Except String (SharedBuffer α) :=
  if capacity ≤ 0 then
    Except.error "configuration error: capacity must be positive"
  else
    Except.ok { capacity := capacity, buffer := [] }

/-- The documented buffer invariant `0 ≤ len(storage) ≤ capacity`. -/
def BufInv {α : Type} (b : SharedBuffer α) : Prop :=
  (0 : Int) ≤ (b.buffer.length : Int) ∧ (b.buffer.length : Int) ≤ b.capacity

instance {α : Type} (b : SharedBuffer α) : Decidable (BufInv b) := by
  unfold BufInv; infer_instance

section BufferLemmas

variable {α : Type}

theorem putOp_eq_some {b b' : SharedBuffer α} {x : α} :
    b.putOp x = some b' ↔
      (b.buffer.length : Int) < b.capacity ∧
        b' = { b with buffer := b.buffer ++ [x] } := by
  unfold SharedBuffer.putOp
  by_cases h : (b.buffer.length : Int) ≥ b.capacity
  · simp [h]
  · simp [h]
    constructor
    · intro hb
      exact ⟨by omega, hb.symm⟩
    · intro hb
      exact hb.2.symm

theorem putOp_eq_none {b : SharedBuffer α} {x : α} :
    b.putOp x = none ↔ b.capacity ≤ (b.buffer.length : Int) := by
  unfold SharedBuffer.putOp
  by_cases h : (b.buffer.length : Int) ≥ b.capacity
  · simp [h]
  · simp [h]


theorem takeOp_eq_some {b b' : SharedBuffer α} {y : α} :
    b.takeOp = some (y, b') ↔
      b.buffer = y :: b'.buffer ∧ b'.capacity = b.capacity := by
  unfold SharedBuffer.takeOp
  obtain ⟨cap, buf⟩ := b
  obtain ⟨cap', buf'⟩ := b'
  cases buf with
  | nil => simp
  | cons z rest =>
      simp only [Option.some_inj, Prod.mk.injEq, SharedBuffer.mk.injEq,
        List.cons.injEq]
      constructor
      · rintro ⟨rfl, rfl, rfl⟩
        exact ⟨⟨rfl, rfl⟩, rfl⟩
      · rintro ⟨⟨rfl, rfl⟩, rfl⟩
        exact ⟨rfl, rfl, rfl⟩

theorem takeOp_eq_none {b : SharedBuffer α} :
    b.takeOp = none ↔ b.buffer = [] := by
  unfold SharedBuffer.takeOp
  cases h : b.buffer <;> simp [h]

end BufferLemmas

/-- A single buffer call issued by a client: `put(x)` or `take()`. -/
inductive BufOp (α : Type) where
  | put (item : α)
  | take
deriving DecidableEq

/-- The items inserted by a call sequence, in insertion order. -/
def putItems {α : Type} : List (BufOp α) → List α
  | [] => []
  | BufOp.put x :: rest => x :: putItems rest
  | BufOp.take :: rest => putItems rest

/-- Runs a sequence of buffer calls sequentially; `none` when a call
would block (so the sequence has no successful completion), otherwise
the final buffer and the items the `take` calls returned, in order. -/
def execOps {α : Type} (b : SharedBuffer α) :
    List (BufOp α) → Option (SharedBuffer α × List α)
  | [] => some (b, [])
  | BufOp.put x :: rest =>
      match b.putOp x with
      | none => none
      | some b' => execOps b' rest
  | BufOp.take :: rest =>
      match b.takeOp with
      | none => none
      | some (y, b') =>
          match execOps b' rest with
          | none => none
          | some (b'', outs) => some (b'', y :: outs)

theorem execOps_fifo {α : Type} (ops : List (BufOp α)) :
    ∀ (b b' : SharedBuffer α) (outs : List α),
      execOps b ops = some (b', outs) →
        b.buffer ++ putItems ops = outs ++ b'.buffer := by
  induction ops with
  | nil =>
      intro b b' outs h
      simp only [execOps, Option.some_inj, Prod.mk.injEq] at h
      obtain ⟨rfl, rfl⟩ := h
      simp [putItems]
  | cons op rest ih =>
      intro b b' outs h
      cases op with
      | put x =>
          simp only [execOps] at h
          cases hput : b.putOp x with
          | none => rw [hput] at h; cases h
          | some b₁ =>
              rw [hput] at h
              obtain ⟨hlt, rfl⟩ := putOp_eq_some.mp hput
              have := ih _ b' outs h
              simpa [putItems] using this
      | take =>
          simp only [execOps] at h
          cases htake : b.takeOp with
          | none =>
              rw [htake] at h
              exact Option.noConfusion h
          | some p =>
              obtain ⟨y, b₁⟩ := p
              simp only [htake] at h
              cases hrec : execOps b₁ rest with
              | none =>
                  rw [hrec] at h
                  exact Option.noConfusion h
              | some q =>
                  obtain ⟨b₂, outs₁⟩ := q
                  simp only [hrec, Option.some_inj, Prod.mk.injEq] at h
                  obtain ⟨rfl, rfl⟩ := h
                  obtain ⟨hbuf, hcap⟩ := takeOp_eq_some.mp htake
                  have := ih _ _ _ hrec
                  simp [putItems, hbuf]
                  rw [← this]

theorem execOps_inv {α : Type} (ops : List (BufOp α)) :
    ∀ (b b' : SharedBuffer α) (outs : List α),
      BufInv b → execOps b ops = some (b', outs) → BufInv b' := by
  induction ops with
  | nil =>
      intro b b' outs hb h
      simp only [execOps, Option.some_inj, Prod.mk.injEq] at h
      rw [← h.1]; exact hb
  | cons op rest ih =>
      intro b b' outs hb h
      cases op with
      | put x =>
          simp only [execOps] at h
          cases hput : b.putOp x with
          | none => rw [hput] at h; cases h
          | some b₁ =>
              rw [hput] at h
              obtain ⟨hlt, rfl⟩ := putOp_eq_some.mp hput
              refine ih _ b' outs ?_ h
              constructor
              · positivity
              · simp
                omega
      | take =>
          simp only [execOps] at h
          cases htake : b.takeOp with
          | none =>
              rw [htake] at h
              exact Option.noConfusion h
          | some p =>
              obtain ⟨y, b₁⟩ := p
              simp only [htake] at h
              cases hrec : execOps b₁ rest with
              | none =>
                  rw [hrec] at h
                  exact Option.noConfusion h
              | some q =>
                  obtain ⟨b₂, outs₁⟩ := q
                  simp only [hrec, Option.some_inj, Prod.mk.injEq] at h
                  obtain ⟨rfl, rfl⟩ := h
                  refine ih _ _ _ ?_ hrec
                  obtain ⟨hbuf, hcap⟩ := takeOp_eq_some.mp htake
                  obtain ⟨h0, hle⟩ := hb
                  constructor
                  · positivity
                  · rw [hcap]
                    rw [hbuf] at hle
                    simp at hle
                    omega

/-- `Consumer.run`: `for _ in range(item_count): item = buffer.take();
destination.append(item)`.  Returns the final buffer, the destination and
the number of `take` calls made; `none` when some `take` blocks with no
producer to unblock it. -/
def Consumer.run {α : Type} (b : SharedBuffer α) (destination : List α) :
    Nat → Option (SharedBuffer α × List α × Nat)
  | 0 => some (b, destination, 0)
  | n + 1 =>
      match b.takeOp with
      | none => none
      | some (x, b') =>
          match Consumer.run b' (destination ++ [x]) n with
          | none => none
          | some (b'', d, t) => some (b'', d, t + 1)

theorem Consumer.run_drains {α : Type} (n : Nat) :
    ∀ (b : SharedBuffer α) (destination : List α),
      n ≤ b.buffer.length →
        Consumer.run b destination n =
          some ({ b with buffer := b.buffer.drop n },
            destination ++ b.buffer.take n, n) := by
  induction n with
  | zero =>
      intro b destination _
      simp [Consumer.run]
  | succ m ih =>
      intro b destination hn
      cases hbuf : b.buffer with
      | nil => rw [hbuf] at hn; simp at hn
      | cons x rest =>
          have htake : b.takeOp = some (x, { b with buffer := rest }) := by
            unfold SharedBuffer.takeOp
            rw [hbuf]
          have hm : m ≤ rest.length := by
            rw [hbuf] at hn
            simpa using hn
          have hrec := ih { b with buffer := rest } (destination ++ [x]) hm
          simp only [Consumer.run, htake, hrec, hbuf]
          simp

/-- `Producer.run` with its `try/except`: iterates the source, where a
malformed element raises (`Except.error`); the handler logs the error and
the loop stops early.  The result is the final buffer paired with the
logged error, if any — the function's type carries no exception out, as
`run` returns normally in every case; `none` only marks a `put` blocked
forever (no exception either). -/
def Producer.run {α ε : Type} (b : SharedBuffer α) :
    List (Except ε α) → Option (SharedBuffer α × Option ε)
  | [] => some (b, none)
  | Except.error e :: _ => some (b, some e)
  | Except.ok x :: rest =>
      match b.putOp x with
      | none => none
      | some b' => Producer.run b' rest

theorem Producer.run_catches {α ε : Type} (goods : List α) :
    ∀ (b : SharedBuffer α) (e : ε) (rest : List (Except ε α)),
      (b.buffer.length : Int) + goods.length ≤ b.capacity →
        Producer.run b (goods.map Except.ok ++ Except.error e :: rest) =
          some ({ b with buffer := b.buffer ++ goods }, some e) := by
  induction goods with
  | nil =>
      intro b e rest _
      simp [Producer.run]
  | cons x goods' ih =>
      intro b e rest hcap
      have hput : b.putOp x = some { b with buffer := b.buffer ++ [x] } := by
        rw [putOp_eq_some]
        refine ⟨?_, rfl⟩
        simp at hcap
        omega
      have hcap' : (({ b with buffer := b.buffer ++ [x] } :
          SharedBuffer α).buffer.length : Int) + goods'.length ≤
            ({ b with buffer := b.buffer ++ [x] } : SharedBuffer α).capacity := by
        simp at hcap ⊢
        omega
      have hrec := ih { b with buffer := b.buffer ++ [x] } e rest hcap'
      simp only [List.map_cons, List.cons_append, Producer.run, hput]
      simp only [List.append_eq]
      rw [hrec]
      simp

/-- `Consumer.run` with its `try/except` and an explicit fault schedule:
`faults` lists, per iteration, whether the loop body raises after the
`take` (`some e`) or completes normally (`none` / exhausted list).  A
raised fault is caught, logged and stops the loop; the run still returns
normally. -/
def Consumer.runFaulty {α ε : Type} (b : SharedBuffer α) (destination : List α) :
    Nat → List (Option ε) → Option (SharedBuffer α × List α × Option ε)
  | 0, _ => some (b, destination, none)
  | n + 1, faults =>
      match b.takeOp with
      | none => none
      | some (x, b') =>
          match faults with
          | Option.some e :: _ => some (b', destination, some e)
          | Option.none :: frest =>
              Consumer.runFaulty b' (destination ++ [x]) n frest
          | [] => Consumer.runFaulty b' (destination ++ [x]) n []

theorem Consumer.runFaulty_catches {α ε : Type} (k : Nat) :
    ∀ (b : SharedBuffer α) (destination : List α) (n : Nat) (e : ε)
      (frest : List (Option ε)),
      k < n → k + 1 ≤ b.buffer.length →
        Consumer.runFaulty b destination n
            (List.replicate k Option.none ++ Option.some e :: frest) =
          some ({ b with buffer := b.buffer.drop (k + 1) },
            destination ++ b.buffer.take k, some e) := by
  induction k with
  | zero =>
      intro b destination n e frest hkn hkb
      obtain ⟨m, rfl⟩ : ∃ m, n = m + 1 := ⟨n - 1, by omega⟩
      cases hbuf : b.buffer with
      | nil => rw [hbuf] at hkb; simp at hkb
      | cons x rest =>
          have htake : b.takeOp = some (x, { b with buffer := rest }) := by
            unfold SharedBuffer.takeOp
            rw [hbuf]
          simp only [List.replicate, List.nil_append, Consumer.runFaulty,
            htake, hbuf]
          simp
  | succ k' ih =>
      intro b destination n e frest hkn hkb
      obtain ⟨m, rfl⟩ : ∃ m, n = m + 1 := ⟨n - 1, by omega⟩
      cases hbuf : b.buffer with
      | nil => rw [hbuf] at hkb; simp at hkb
      | cons x rest =>
          have htake : b.takeOp = some (x, { b with buffer := rest }) := by
            unfold SharedBuffer.takeOp
            rw [hbuf]
          have hkb' : k' + 1 ≤ rest.length := by
            rw [hbuf] at hkb
            simpa using hkb
          have hrec := ih { b with buffer := rest } (destination ++ [x]) m e
            frest (by omega) hkb'
          simp only [List.replicate, List.cons_append, Consumer.runFaulty,
            htake, hrec, hbuf]
          simp

/-- Global state of one `Producer.run` and one `Consumer.run` sharing a
buffer: the items the producer has not yet `put`, the number of loop
iterations the consumer has left, and the consumer's destination list. -/
structure SysState (α : Type) where
  buf : SharedBuffer α
  source : List α
  pending : Nat
  destination : List α
deriving DecidableEq

/-- One interleaving step: either the producer completes a `put` of its
next source item, or the consumer completes a `take` and appends the item
to its destination.  A blocked call (guard `none`) yields no step. -/
inductive SysStep {α : Type} : SysState α → SysState α → Prop where
  | produce (s : SysState α) (x : α) (rest : List α) (b' : SharedBuffer α) :
      s.source = x :: rest → s.buf.putOp x = some b' →
      SysStep s ⟨b', rest, s.pending, s.destination⟩
  | consume (s : SysState α) (k : Nat) (x : α) (b' : SharedBuffer α) :
      s.pending = k + 1 → s.buf.takeOp = some (x, b') →
      SysStep s ⟨b', s.source, k, s.destination ++ [x]⟩

/-- The harness wiring of `main`: a fresh buffer of capacity `C`, the
producer over `S`, the consumer expecting `len(S)` items, an empty
destination. -/
def initState {α : Type} (C : Int) (S : List α) : SysState α :=
  { buf := SharedBuffer.init C, source := S, pending := S.length,
    destination := [] }

/-- States the run can be in, from the initial wiring. -/
def Reaches {α : Type} (C : Int) (S : List α) (s : SysState α) : Prop :=
  Relation.ReflTransGen SysStep (initState C S) s

/-- No step applies: both tasks are finished, or blocked forever. -/
def Halted {α : Type} (s : SysState α) : Prop :=
  ∀ t, ¬ SysStep s t

/-- Run invariant: capacity is fixed, no item is lost, duplicated or
reordered, the consumer's remaining count matches what is still in
flight, and occupancy stays within capacity. -/
def SysInv {α : Type} (C : Int) (S : List α) (s : SysState α) : Prop :=
  s.buf.capacity = C ∧
  s.destination ++ s.buf.buffer ++ s.source = S ∧
  s.pending = s.buf.buffer.length + s.source.length ∧
  (s.buf.buffer.length : Int) ≤ C

theorem sysStep_inv {α : Type} {C : Int} {S : List α} {s t : SysState α}
    (hinv : SysInv C S s) (hstep : SysStep s t) : SysInv C S t := by
  obtain ⟨hcap, hitems, hcount, hlen⟩ := hinv
  cases hstep with
  | produce x rest b' hsrc hput =>
      obtain ⟨hlt, rfl⟩ := putOp_eq_some.mp hput
      refine ⟨hcap, ?_, ?_, ?_⟩
      · rw [← hitems, hsrc]
        simp
      · rw [hsrc] at hcount
        simp at hcount ⊢
        omega
      · simp
        omega
  | consume k x b' hpend htake =>
      obtain ⟨hbuf, hcap'⟩ := takeOp_eq_some.mp htake
      refine ⟨by simp only; rw [hcap', hcap], ?_, ?_, ?_⟩
      · rw [← hitems, hbuf]
        simp
      · rw [hbuf] at hcount
        simp only at hcount ⊢
        simp at hcount
        omega
      · simp only
        rw [hbuf] at hlen
        simp at hlen
        omega

theorem reaches_inv {α : Type} {C : Int} {S : List α} (hC : 0 ≤ C)
    {s : SysState α} (h : Reaches C S s) : SysInv C S s := by
  induction h with
  | refl =>
      refine ⟨rfl, ?_, ?_, ?_⟩ <;>
        simp [initState, SharedBuffer.init, hC]
  | tail _ hstep ih => exact sysStep_inv ih hstep

theorem halted_inv_done {α : Type} {C : Int} {S : List α} (hC : 1 ≤ C)
    {s : SysState α} (hinv : SysInv C S s) (hh : Halted s) :
    s.source = [] ∧ s.pending = 0 ∧ s.buf.buffer = [] ∧
      s.destination = S := by
  obtain ⟨hcap, hitems, hcount, hlen⟩ := hinv
  have hsrc : s.source = [] := by
    cases hsrc : s.source with
    | nil => rfl
    | cons x rest =>
        exfalso
        cases hput : s.buf.putOp x with
        | some b' => exact hh _ (SysStep.produce s x rest b' hsrc hput)
        | none =>
            have hfull : s.buf.capacity ≤ (s.buf.buffer.length : Int) :=
              putOp_eq_none.mp hput
            have hne : s.buf.buffer ≠ [] := by
              intro hnil
              rw [hnil] at hfull
              simp at hfull
              omega
            cases hbuf : s.buf.buffer with
            | nil => exact hne hbuf
            | cons y brest =>
                have htake : s.buf.takeOp =
                    some (y, { s.buf with buffer := brest }) := by
                  unfold SharedBuffer.takeOp
                  rw [hbuf]
                have hpos : 1 ≤ s.pending := by
                  rw [hcount, hsrc]
                  simp
                  omega
                have hk : s.pending = (s.pending - 1) + 1 := by omega
                exact hh _ (SysStep.consume s (s.pending - 1) y _ hk htake)
  have hbufnil : s.buf.buffer = [] := by
    cases hbuf : s.buf.buffer with
    | nil => rfl
    | cons y brest =>
        exfalso
        have htake : s.buf.takeOp =
            some (y, { s.buf with buffer := brest }) := by
          unfold SharedBuffer.takeOp
          rw [hbuf]
        have hk : s.pending = (brest.length + s.source.length) + 1 := by
          rw [hcount, hbuf]
          simp
          omega
        exact hh _ (SysStep.consume s _ y _ hk htake)
  have hpend0 : s.pending = 0 := by
    rw [hcount, hsrc, hbufnil]
    simp
  refine ⟨hsrc, hpend0, hbufnil, ?_⟩
  rw [← hitems, hsrc, hbufnil]
  simp

/-- Interleaving measure: strictly decreases at every step, so every run
is finite. -/
def sysMeasure {α : Type} (s : SysState α) : Nat :=
  2 * s.source.length + s.pending

theorem sysStep_measure {α : Type} {s t : SysState α} (h : SysStep s t) :
    sysMeasure t < sysMeasure s := by
  cases h with
  | produce x rest b' hsrc hput =>
      simp only [sysMeasure]
      rw [hsrc]
      simp
  | consume k x b' hpend htake =>
      simp only [sysMeasure]
      rw [hpend]
      simp

/-- Modelled from the spec: the external bounded concurrent queue used by
`ProducerConsumerQueue` ("`put`/blocking-`get` with an internal mark item
processed acknowledgment", the library `queue.Queue(maxsize=capacity)`).
`items` is the FIFO store; `unfinished` counts items put but not yet
acknowledged by `task_done`. -/
structure PCQueue (α : Type) where
  maxsize : Int
  items : List α
  unfinished : Nat
deriving DecidableEq

/-- Fresh queue of `ProducerConsumerQueue.__init__`. -/
def PCQueue.init {α : Type} (capacity : Int) : PCQueue α :=
  { maxsize := capacity, items := [], unfinished := 0 }

/-- Modelled from the spec: `queue.put` blocks (`none`) while the queue
is full — with `maxsize ≤ 0` it is never full; otherwise it appends at
the tail and counts one more unfinished task. -/
def PCQueue.putOp {α : Type} (q : PCQueue α) (item : α) :
    Option (PCQueue α) :=
  if 0 < q.maxsize ∧ (q.items.length : Int) ≥ q.maxsize then
    none
  else
    some { q with items := q.items ++ [item], unfinished := q.unfinished + 1 }

/-- Modelled from the spec: blocking `queue.get` removes and returns the
head, blocking (`none`) while the queue is empty. -/
def PCQueue.getOp {α : Type} (q : PCQueue α) : Option (α × PCQueue α) :=
  match q.items with
  | [] => none
  | item :: rest => some (item, { q with items := rest })

/-- Modelled from the spec: `queue.task_done` acknowledges one gotten
item; with no outstanding item it raises (`none`). -/
def PCQueue.taskDone {α : Type} (q : PCQueue α) : Option (PCQueue α) :=
  match q.unfinished with
  | 0 => none
  | n + 1 => some { q with unfinished := n }

/-- Global state of `ProducerConsumerQueue.producer` and `.consumer`:
`needAck` records that the consumer is between `get` and `task_done`. -/
structure QSysState (α : Type) where
  q : PCQueue α
  source : List α
  pending : Nat
  needAck : Bool
  destination : List α
deriving DecidableEq

/-- One interleaving step of the queue-based run: a producer `put`, a
consumer `get`-and-append, or the consumer's `task_done` ack. -/
inductive QStep {α : Type} : QSysState α → QSysState α → Prop where
  | produce (s : QSysState α) (x : α) (rest : List α) (q' : PCQueue α) :
      s.source = x :: rest → s.q.putOp x = some q' →
      QStep s ⟨q', rest, s.pending, s.needAck, s.destination⟩
  | consume (s : QSysState α) (k : Nat) (x : α) (q' : PCQueue α) :
      s.needAck = false → s.pending = k + 1 → s.q.getOp = some (x, q') →
      QStep s ⟨q', s.source, k, true, s.destination ++ [x]⟩
  | ack (s : QSysState α) (q' : PCQueue α) :
      s.needAck = true → s.q.taskDone = some q' →
      QStep s ⟨q', s.source, s.pending, false, s.destination⟩

/-- The harness wiring of `demo_queue_implementation`. -/
def qInitState {α : Type} (C : Int) (S : List α) : QSysState α :=
  { q := PCQueue.init C, source := S, pending := S.length, needAck := false,
    destination := [] }

/-- States the queue-based run can be in, from the initial wiring. -/
def QReaches {α : Type} (C : Int) (S : List α) (s : QSysState α) : Prop :=
  Relation.ReflTransGen QStep (qInitState C S) s

/-- No step applies in the queue-based run. -/
def QHalted {α : Type} (s : QSysState α) : Prop :=
  ∀ t, ¬ QStep s t

/-- Invariant of the queue-based run. -/
def QInv {α : Type} (C : Int) (S : List α) (s : QSysState α) : Prop :=
  s.q.maxsize = C ∧
  s.destination ++ s.q.items ++ s.source = S ∧
  s.pending = s.q.items.length + s.source.length ∧
  s.q.unfinished = s.q.items.length + (if s.needAck then 1 else 0)

theorem qputOp_eq_some {α : Type} {q q' : PCQueue α} {x : α} :
    q.putOp x = some q' ↔
      ¬ (0 < q.maxsize ∧ (q.items.length : Int) ≥ q.maxsize) ∧
        q' = { q with items := q.items ++ [x], unfinished := q.unfinished + 1 } := by
  unfold PCQueue.putOp
  by_cases h : 0 < q.maxsize ∧ (q.items.length : Int) ≥ q.maxsize
  · simp [h]
  · simp [h]
    exact comm

theorem qputOp_eq_none {α : Type} {q : PCQueue α} {x : α} :
    q.putOp x = none ↔
      0 < q.maxsize ∧ q.maxsize ≤ (q.items.length : Int) := by
  unfold PCQueue.putOp
  by_cases h : 0 < q.maxsize ∧ (q.items.length : Int) ≥ q.maxsize
  · simp [h]
  · simp [h]

theorem qgetOp_eq_some {α : Type} {q q' : PCQueue α} {y : α} :
    q.getOp = some (y, q') ↔
      q.items = y :: q'.items ∧ q'.maxsize = q.maxsize ∧
        q'.unfinished = q.unfinished := by
  unfold PCQueue.getOp
  obtain ⟨m, its, u⟩ := q
  obtain ⟨m', its', u'⟩ := q'
  cases its with
  | nil => simp
  | cons z rest =>
      simp only [Option.some_inj, Prod.mk.injEq, PCQueue.mk.injEq,
        List.cons.injEq]
      constructor
      · rintro ⟨rfl, rfl, rfl, rfl⟩
        exact ⟨⟨rfl, rfl⟩, rfl, rfl⟩
      · rintro ⟨⟨rfl, rfl⟩, rfl, rfl⟩
        exact ⟨rfl, rfl, rfl, rfl⟩

theorem qStep_inv {α : Type} {C : Int} {S : List α} {s t : QSysState α}
    (hinv : QInv C S s) (hstep : QStep s t) : QInv C S t := by
  obtain ⟨hcap, hitems, hcount, hack⟩ := hinv
  cases hstep with
  | produce x rest q' hsrc hput =>
      obtain ⟨hok, rfl⟩ := qputOp_eq_some.mp hput
      refine ⟨hcap, ?_, ?_, ?_⟩
      · rw [← hitems, hsrc]
        simp
      · rw [hsrc] at hcount
        simp at hcount ⊢
        omega
      · cases hna2 : s.needAck <;> simp [hna2] at hack ⊢ <;> omega
  | consume k x q' hna hpend hget =>
      obtain ⟨hq, hmax, hunf⟩ := qgetOp_eq_some.mp hget
      refine ⟨by simp only; rw [hmax, hcap], ?_, ?_, ?_⟩
      · rw [← hitems, hq]
        simp
      · rw [hq] at hcount
        simp at hcount ⊢
        omega
      · rw [hq] at hack
        rw [hna] at hack
        simp only [hunf, hack]
        simp
  | ack q' hna hdone =>
      unfold PCQueue.taskDone at hdone
      cases hunf : s.q.unfinished with
      | zero => rw [hunf] at hdone; cases hdone
      | succ n =>
          rw [hunf] at hdone
          simp only [Option.some_inj] at hdone
          subst hdone
          rw [hna] at hack
          rw [hunf] at hack
          simp at hack
          refine ⟨hcap, by simpa using hitems, by simpa using hcount, ?_⟩
          simp
          omega

theorem qReaches_inv {α : Type} {C : Int} {S : List α}
    {s : QSysState α} (h : QReaches C S s) : QInv C S s := by
  induction h with
  | refl =>
      refine ⟨rfl, ?_, ?_, ?_⟩ <;>
        simp [qInitState, PCQueue.init]
  | tail _ hstep ih => exact qStep_inv ih hstep

theorem qHalted_inv_done {α : Type} {C : Int} {S : List α} (hC : 1 ≤ C)
    {s : QSysState α} (hinv : QInv C S s) (hh : QHalted s) :
    s.source = [] ∧ s.pending = 0 ∧ s.q.items = [] ∧ s.needAck = false ∧
      s.destination = S := by
  obtain ⟨hcap, hitems, hcount, hack⟩ := hinv
  have hna : s.needAck = false := by
    cases hna : s.needAck with
    | false => rfl
    | true =>
        exfalso
        have hunf : ∃ n, s.q.unfinished = n + 1 := by
          rw [hack, hna]
          simp
        obtain ⟨n, hn⟩ := hunf
        have hdone : s.q.taskDone = some { s.q with unfinished := n } := by
          unfold PCQueue.taskDone
          rw [hn]
        exact hh _ (QStep.ack s _ hna hdone)
  have hsrc : s.source = [] := by
    cases hsrc : s.source with
    | nil => rfl
    | cons x rest =>
        exfalso
        cases hput : s.q.putOp x with
        | some q' => exact hh _ (QStep.produce s x rest q' hsrc hput)
        | none =>
            obtain ⟨hpos, hfull⟩ := qputOp_eq_none.mp hput
            have hne : s.q.items ≠ [] := by
              intro hnil
              rw [hnil] at hfull
              simp at hfull
              rw [hcap] at hfull
              omega
            cases hq : s.q.items with
            | nil => exact hne hq
            | cons y qrest =>
                have hget : s.q.getOp =
                    some (y, { s.q with items := qrest }) := by
                  unfold PCQueue.getOp
                  rw [hq]
                have hpos' : 1 ≤ s.pending := by
                  rw [hcount, hsrc]
                  simp
                  omega
                have hk : s.pending = (s.pending - 1) + 1 := by omega
                exact hh _ (QStep.consume s (s.pending - 1) y _ hna hk hget)
  have hqnil : s.q.items = [] := by
    cases hq : s.q.items with
    | nil => rfl
    | cons y qrest =>
        exfalso
        have hget : s.q.getOp = some (y, { s.q with items := qrest }) := by
          unfold PCQueue.getOp
          rw [hq]
        have hk : s.pending = (qrest.length + s.source.length) + 1 := by
          rw [hcount, hq]
          simp
          omega
        exact hh _ (QStep.consume s _ y _ hna hk hget)
  have hpend0 : s.pending = 0 := by
    rw [hcount, hsrc, hqnil]
    simp
  refine ⟨hsrc, hpend0, hqnil, hna, ?_⟩
  rw [← hitems, hsrc, hqnil]
  simp

/-- Measure for the queue-based run. -/
def qMeasure {α : Type} (s : QSysState α) : Nat :=
  3 * s.source.length + 2 * s.pending + (if s.needAck then 1 else 0)

theorem qStep_measure {α : Type} {s t : QSysState α} (h : QStep s t) :
    qMeasure t < qMeasure s := by
  cases h with
  | produce x rest q' hsrc hput =>
      simp only [qMeasure]
      rw [hsrc]
      simp
  | consume k x q' hna hpend hget =>
      simp only [qMeasure]
      rw [hpend, hna]
      simp
      omega
  | ack q' hna hdone =>
      simp only [qMeasure]
      rw [hna]
      simp

/-- C1: for every capacity `C ≥ 1` and finite source `S`, one producer
over `S` interleaved in any order with one consumer expecting `len(S)`
items terminates (the step measure strictly decreases, and every halted
reachable state — the only way a maximal run can end — has
`destination = S`, the source order preserved). -/
theorem producer_consumer_delivers_source {α : Type} (C : Int) (S : List α)
    (hC : 1 ≤ C) :
    (∀ s : SysState α, Reaches C S s → Halted s → s.destination = S) ∧
    (∀ s t : SysState α, SysStep s t → sysMeasure t < sysMeasure s) := by
  constructor
  · intro s hr hh
    exact (halted_inv_done hC (reaches_inv (by omega) hr) hh).2.2.2
  · intro s t h
    exact sysStep_measure h

theorem producer_consumer_delivers_source_witness :
    ((1 : Int) ≤ 2) ∧
    ((∀ s : SysState Int, Reaches 2 [1, 2, 3] s → Halted s →
        s.destination = [1, 2, 3]) ∧
      (∀ s t : SysState Int, SysStep s t → sysMeasure t < sysMeasure s)) :=
  ⟨by decide, producer_consumer_delivers_source 2 [1, 2, 3] (by decide)⟩

/-- C2: the buffer is strict FIFO — a successful `put` appends at the
tail, a successful `take` removes and returns the head, and over any
successful call sequence from a fresh buffer the items returned by
`take`, in order, followed by what is left in the buffer, are exactly
the items inserted in insertion order. -/
theorem buffer_strict_fifo {α : Type} :
    (∀ (b b' : SharedBuffer α) (x : α),
        b.putOp x = some b' → b'.buffer = b.buffer ++ [x]) ∧
    (∀ (b b' : SharedBuffer α) (y : α),
        b.takeOp = some (y, b') → b.buffer = y :: b'.buffer) ∧
    (∀ (C : Int) (ops : List (BufOp α)) (b' : SharedBuffer α) (outs : List α),
        execOps (SharedBuffer.init C) ops = some (b', outs) →
          putItems ops = outs ++ b'.buffer) := by
  refine ⟨?_, ?_, ?_⟩
  · intro b b' x h
    obtain ⟨_, rfl⟩ := putOp_eq_some.mp h
    rfl
  · intro b b' y h
    exact (takeOp_eq_some.mp h).1
  · intro C ops b' outs h
    have := execOps_fifo ops (SharedBuffer.init C) b' outs h
    simpa [SharedBuffer.init] using this

theorem buffer_strict_fifo_witness :
    ((⟨2, [5]⟩ : SharedBuffer Int).buffer =
        (⟨2, []⟩ : SharedBuffer Int).buffer ++ [5]) ∧
    ((⟨2, [7, 8]⟩ : SharedBuffer Int).buffer =
        7 :: (⟨2, [8]⟩ : SharedBuffer Int).buffer) ∧
    (putItems [BufOp.put 1, BufOp.put 2, BufOp.take, BufOp.take] =
        ([1, 2] : List Int) ++ (⟨2, []⟩ : SharedBuffer Int).buffer) :=
  ⟨buffer_strict_fifo.1 ⟨2, []⟩ ⟨2, [5]⟩ 5 (by decide),
   buffer_strict_fifo.2.1 ⟨2, [7, 8]⟩ ⟨2, [8]⟩ 7 (by decide),
   buffer_strict_fifo.2.2 2 [BufOp.put 1, BufOp.put 2, BufOp.take, BufOp.take]
     ⟨2, []⟩ [1, 2] (by decide)⟩

/-- C3 (counterexample): the source constructor accepts capacity `-1`,
and the resulting buffer violates `0 ≤ len(storage) ≤ capacity` right
after construction. -/
theorem buffer_invariant_fails_negative_capacity :
    ¬ BufInv (SharedBuffer.init (α := Int) (-1)) := by
  decide

/-- C3 (amended): for every buffer constructed with capacity `C ≥ 0` the
predicate `0 ≤ len(storage) ≤ C` holds after construction and is
preserved by every `put`, `take` and `size`, hence by any sequence of
such operations. -/
theorem buffer_invariant_holds {α : Type} (C : Int) (hC : 0 ≤ C) :
    BufInv (SharedBuffer.init (α := α) C) ∧
    (∀ (b b' : SharedBuffer α) (x : α),
        BufInv b → b.putOp x = some b' → BufInv b') ∧
    (∀ (b b' : SharedBuffer α) (y : α),
        BufInv b → b.takeOp = some (y, b') → BufInv b') ∧
    (∀ b : SharedBuffer α, BufInv b → BufInv (SharedBuffer.size b).2) ∧
    (∀ (ops : List (BufOp α)) (b' : SharedBuffer α) (outs : List α),
        execOps (SharedBuffer.init C) ops = some (b', outs) → BufInv b') := by
  have hinit : BufInv (SharedBuffer.init (α := α) C) := by
    unfold BufInv SharedBuffer.init
    simpa using hC
  refine ⟨hinit, ?_, ?_, ?_, ?_⟩
  · intro b b' x _ h
    obtain ⟨hlt, rfl⟩ := putOp_eq_some.mp h
    unfold BufInv
    simp
    omega
  · intro b b' y hb h
    obtain ⟨hbuf, hcap⟩ := takeOp_eq_some.mp h
    obtain ⟨h0, hle⟩ := hb
    rw [hbuf] at hle
    unfold BufInv
    rw [hcap]
    simp at hle
    constructor
    · positivity
    · omega
  · intro b hb
    exact hb
  · intro ops b' outs h
    exact execOps_inv ops _ b' outs hinit h

theorem buffer_invariant_holds_witness :
    ((0 : Int) ≤ 2) ∧ BufInv (SharedBuffer.init (α := Int) 2) :=
  ⟨by decide, (buffer_invariant_holds (α := Int) 2 (by decide)).1⟩

/-- C4 (counterexample): constructing with capacity `-3 ≤ 0` does not
fail — the source constructor has no validation and returns a fully
formed buffer — whereas the claimed behavior is a configuration error. -/
theorem init_accepts_nonpositive_capacity :
    SharedBuffer.init (α := Int) (-3) =
        { capacity := -3, buffer := [] } ∧
      SharedBuffer.initClaimed (α := Int) (-3) =
        Except.error "configuration error: capacity must be positive" := by
  constructor
  · rfl
  · rfl

/-- C4 (amended): construction never fails: for every capacity,
non-positive included, it returns a buffer with that capacity and empty
storage; for positive capacity this agrees with the spec's claimed
checked constructor. -/
theorem init_always_succeeds {α : Type} (c : Int) :
    SharedBuffer.init (α := α) c = { capacity := c, buffer := [] } ∧
    (0 < c →
      SharedBuffer.initClaimed (α := α) c =
        Except.ok (SharedBuffer.init c)) := by
  constructor
  · rfl
  · intro h
    unfold SharedBuffer.initClaimed SharedBuffer.init
    rw [if_neg (by omega)]

theorem init_always_succeeds_witness :
    ((0 : Int) < 5) ∧
      SharedBuffer.initClaimed (α := Int) 5 =
        Except.ok (SharedBuffer.init 5) :=
  ⟨by decide, (init_always_succeeds (α := Int) 5).2 (by decide)⟩

/-- C5: occupancy state machine — `put` yields no effect from `FULL`
(size = capacity blocks) and a successful `put` raises the size by
exactly one; `take` yields no effect from `EMPTY` (size = 0 blocks) and
a successful `take` lowers the size by exactly one. -/
theorem occupancy_transitions {α : Type} (b : SharedBuffer α) (x : α) :
    ((b.buffer.length : Int) = b.capacity → b.putOp x = none) ∧
    (∀ b', b.putOp x = some b' → b'.buffer.length = b.buffer.length + 1) ∧
    (b.buffer.length = 0 → b.takeOp = none) ∧
    (∀ y b', b.takeOp = some (y, b') →
        b.buffer.length = b'.buffer.length + 1) := by
  refine ⟨?_, ?_, ?_, ?_⟩
  · intro h
    rw [putOp_eq_none]
    omega
  · intro b' h
    obtain ⟨_, rfl⟩ := putOp_eq_some.mp h
    simp
  · intro h
    rw [takeOp_eq_none]
    exact List.length_eq_zero.mp h
  · intro y b' h
    rw [(takeOp_eq_some.mp h).1]
    simp

theorem occupancy_transitions_witness :
    ((⟨1, [9]⟩ : SharedBuffer Int).putOp 4 = none) ∧
    ((⟨2, [9, 3]⟩ : SharedBuffer Int).buffer.length =
        (⟨2, [9]⟩ : SharedBuffer Int).buffer.length + 1) ∧
    ((⟨2, []⟩ : SharedBuffer Int).takeOp = none) ∧
    ((⟨2, [7]⟩ : SharedBuffer Int).buffer.length =
        (⟨2, []⟩ : SharedBuffer Int).buffer.length + 1) :=
  ⟨(occupancy_transitions ⟨1, [9]⟩ 4).1 (by decide),
   (occupancy_transitions ⟨2, [9]⟩ 3).2.1 ⟨2, [9, 3]⟩ (by decide),
   (occupancy_transitions ⟨2, []⟩ 0).2.2.1 (by decide),
   (occupancy_transitions ⟨2, [7]⟩ 0).2.2.2 7 ⟨2, []⟩ (by decide)⟩

/-- C6: the consumer loop calls `take` exactly `item_count` times and
appends each returned item in order to its destination; with
`item_count = 0` it appends nothing and completes immediately. -/
theorem consumer_consumes_exactly {α : Type} (b : SharedBuffer α)
    (destination : List α) (n : Nat) (h : n ≤ b.buffer.length) :
    Consumer.run b destination n =
      some ({ b with buffer := b.buffer.drop n },
        destination ++ b.buffer.take n, n) ∧
    Consumer.run b destination 0 = some (b, destination, 0) :=
  ⟨Consumer.run_drains n b destination h, rfl⟩

theorem consumer_consumes_exactly_witness :
    Consumer.run (⟨5, [1, 2, 3]⟩ : SharedBuffer Int) [] 2 =
      some (⟨5, [3]⟩, [1, 2], 2) ∧
    Consumer.run (⟨5, [1, 2, 3]⟩ : SharedBuffer Int) [] 0 =
      some (⟨5, [1, 2, 3]⟩, [], 0) :=
  consumer_consumes_exactly ⟨5, [1, 2, 3]⟩ [] 2 (by decide)

/-- C7: an exception raised inside a task loop is caught inside `run`:
the producer stops at the first malformed item with the error recorded
(logged), the earlier items already put; the consumer stops at the first
faulting iteration with the error recorded and the earlier items already
appended.  Both runs return normally — their types carry no exception
out. -/
theorem tasks_catch_exceptions {α ε : Type} :
    (∀ (b : SharedBuffer α) (goods : List α) (e : ε)
        (rest : List (Except ε α)),
      (b.buffer.length : Int) + goods.length ≤ b.capacity →
        Producer.run b (goods.map Except.ok ++ Except.error e :: rest) =
          some ({ b with buffer := b.buffer ++ goods }, some e)) ∧
    (∀ (b : SharedBuffer α) (destination : List α) (n k : Nat) (e : ε)
        (frest : List (Option ε)),
      k < n → k + 1 ≤ b.buffer.length →
        Consumer.runFaulty b destination n
            (List.replicate k Option.none ++ Option.some e :: frest) =
          some ({ b with buffer := b.buffer.drop (k + 1) },
            destination ++ b.buffer.take k, some e)) :=
  ⟨fun b goods e rest h => Producer.run_catches goods b e rest h,
   fun b destination n k e frest hkn hkb =>
     Consumer.runFaulty_catches k b destination n e frest hkn hkb⟩

theorem tasks_catch_exceptions_witness :
    (Producer.run (⟨3, []⟩ : SharedBuffer Int)
        ([1, 2].map Except.ok ++ Except.error "E" :: []) =
      some (⟨3, [1, 2]⟩, some "E")) ∧
    (Consumer.runFaulty (⟨5, [1, 2, 3]⟩ : SharedBuffer Int) [] 3
        (List.replicate 1 Option.none ++ Option.some "F" :: []) =
      some (⟨5, [3]⟩, [1], some "F")) :=
  ⟨tasks_catch_exceptions.1 ⟨3, []⟩ [1, 2] "E" [] (by decide),
   tasks_catch_exceptions.2 ⟨5, [1, 2, 3]⟩ [] 3 1 "F" [] (by decide)
     (by decide)⟩

/-- C8: `size()` returns the current length of storage and leaves the
buffer unchanged: contents, order and capacity are identical before and
after the call. -/
theorem size_observational {α : Type} (b : SharedBuffer α) :
    (SharedBuffer.size b).1 = b.buffer.length ∧
    (SharedBuffer.size b).2.buffer = b.buffer ∧
    (SharedBuffer.size b).2.capacity = b.capacity :=
  ⟨rfl, rfl, rfl⟩

/-- C9: the queue-backed implementation is interchangeable with
`SharedBuffer` from the tasks' point of view — for every capacity
`C ≥ 1` and source `S`, any completed queue-based run and any completed
buffer-based run produce the same destination sequence (both runs also
terminate: their measures strictly decrease). -/
theorem queue_matches_buffer {α : Type} (C : Int) (S : List α)
    (hC : 1 ≤ C) :
    (∀ (sq : QSysState α) (sb : SysState α),
        QReaches C S sq → Reaches C S sb → QHalted sq → Halted sb →
          sq.destination = sb.destination) ∧
    (∀ s t : QSysState α, QStep s t → qMeasure t < qMeasure s) := by
  constructor
  · intro sq sb hq hb hhq hhb
    have h1 := (qHalted_inv_done hC (qReaches_inv hq) hhq).2.2.2.2
    have h2 := (halted_inv_done hC (reaches_inv (by omega) hb) hhb).2.2.2
    rw [h1, h2]
  · intro s t h
    exact qStep_measure h

theorem queue_matches_buffer_witness :
    ((1 : Int) ≤ 2) ∧
    ((∀ (sq : QSysState Int) (sb : SysState Int),
        QReaches 2 [1, 2, 3] sq → Reaches 2 [1, 2, 3] sb →
          QHalted sq → Halted sb → sq.destination = sb.destination) ∧
      (∀ s t : QSysState Int, QStep s t → qMeasure t < qMeasure s)) :=
  ⟨by decide, queue_matches_buffer 2 [1, 2, 3] (by decide)⟩

/-- C10: round trip on an empty buffer with capacity at least one —
`put(x)` succeeds and leaves `[x]`, a following `take()` returns exactly
`x` and restores the buffer to its state before the `put`. -/
theorem put_take_round_trip {α : Type} (b : SharedBuffer α) (x : α)
    (hcap : 1 ≤ b.capacity) (hempty : b.buffer = []) :
    b.putOp x = some { b with buffer := [x] } ∧
    ({ b with buffer := [x] } : SharedBuffer α).takeOp = some (x, b) := by
  constructor
  · rw [putOp_eq_some]
    constructor
    · rw [hempty]
      simpa using hcap
    · rw [hempty]
      simp
  · unfold SharedBuffer.takeOp
    obtain ⟨cap, buf⟩ := b
    simp only at hempty
    subst hempty
    rfl

theorem put_take_round_trip_witness :
    ((⟨1, []⟩ : SharedBuffer Int).putOp 42 = some ⟨1, [42]⟩) ∧
    ((⟨1, [42]⟩ : SharedBuffer Int).takeOp = some (42, ⟨1, []⟩)) :=
  put_take_round_trip ⟨1, []⟩ 42 (by decide) (by decide)

end ProducerConsumer
